import Mathlib

/-!
# Verification of the query-driven text highlighter (`highlightFromQuery`)

Shallow embedding of `highlightFromQuery` from `scripts.js` together with the
parts of the browser environment it relies on (URL query parameters, the
`RegExp` pattern fragment produced by the escaping step, the `TreeWalker`
traversal, `replaceChild`, `scrollIntoView`, `console.warn`).

Text content is modelled as `List Char`.  Tag names and class names are kept
as `String`s exactly as they appear in the source.
-/

namespace Highlighter

/-! ## Regex patterns

`highlightFromQuery` builds its matcher as
`new RegExp(term.replace(/[.*+?^${}()|[\]\\]/g, '\\$&'), 'gi')`.
After escaping, the pattern consists solely of escaped literals, so the
interpreter below covers the pattern fragment that can reach the matcher:
escaped literals (`\c`), the wildcard `.` (what an *unescaped* dot would
mean), and plain literal characters.  The `i` flag is modelled by comparing
characters through `Char.toLower` (ASCII case folding, as in the examples the
source is used on). -/

/-- The characters replaced by `term.replace(/[.*+?^${}()|[\]\\]/g, '\\$&')`. -/
def regexSpecials : List Char :=
  ['.', '*', '+', '?', '^', '$', '\x7b', '\x7d', '(', ')', '|', '[', ']', '\\']

/-- `term.replace(/[.*+?^${}()|[\]\\]/g, '\\$&')`: prepend a backslash to every
regex special character of the term. -/
def escapeRegex (t : List Char) : List Char :=
  t.flatMap fun c => if regexSpecials.contains c then ['\\', c] else [c]

/-- One token of the pattern fragment reachable from the source: a literal
character or the wildcard `.`. -/
inductive PatTok where
  | lit (c : Char)
  | dot
deriving DecidableEq, Repr

/-- Lex a pattern of the supported fragment.  A backslash makes the following
character literal; an unescaped `.` is the wildcard.  (A trailing lone
backslash cannot be produced by `escapeRegex`; it lexes to nothing.) -/
def lexPat : List Char → List PatTok
  | [] => []
  | c :: rest =>
    if c = '\\' then
      match rest with
      | [] => []
      | c2 :: rest2 => .lit c2 :: lexPat rest2
    else if c = '.' then .dot :: lexPat rest
    else .lit c :: lexPat rest

/-- Case-insensitive token match (the `i` flag). -/
def tokMatches : PatTok → Char → Bool
  | .lit l, c => l.toLower = c.toLower
  | .dot, _ => true

/-- Does the pattern match at the very start of `s` (consuming
`pat.length` characters)? -/
def patMatchesAt : List PatTok → List Char → Bool
  | [], _ => true
  | _ :: _, [] => false
  | t :: ts, c :: cs => tokMatches t c && patMatchesAt ts cs

/-- `regex.test(s)` (with `lastIndex` reset afterwards, as in the source):
does the pattern match starting at some position of `s`? -/
def hasAnyMatch (pat : List PatTok) : List Char → Bool
  | [] => patMatchesAt pat []
  | c :: cs => patMatchesAt pat (c :: cs) || hasAnyMatch pat cs

/-- The pattern the source builds from the (already decoded) search term. -/
def patOf (t : List Char) : List PatTok :=
  lexPat (escapeRegex t)

/-- A successful match consumes `pat.length` characters, so the input is at
least that long. -/
theorem patMatchesAt_length {pat : List PatTok} {s : List Char}
    (h : patMatchesAt pat s = true) : pat.length ≤ s.length := by
  induction pat generalizing s with
  | nil => simp
  | cons t ts ih =>
    cases s with
    | nil => simp [patMatchesAt] at h
    | cons c cs =>
      simp only [patMatchesAt, Bool.and_eq_true] at h
      simpa [Nat.succ_le_succ_iff] using ih h.2

/-! ## Splitting one text node

The `while ((match = regex.exec(textContent)))` loop over a single text
node's value: scan left to right, collect non-overlapping matches, and emit
an alternation of plain text runs and highlighted (marked) runs.  `Piece`
is one entry of the `DocumentFragment` the source builds. -/

/-- One piece of the replacement fragment built for a matching text node. -/
inductive Piece where
  | plain (s : List Char)
  | mark (s : List Char)
deriving DecidableEq, Repr

/-- Emit the pending plain run (the source only appends a text node when the
run is non-empty). -/
def flushAcc (acc : List Char) : List Piece :=
  if acc = [] then [] else [.plain acc.reverse]

/-- The per-node `regex.exec` loop.  `acc` holds (reversed) the characters
since the last match end (`textContent.slice(lastIndex, matchStart)` in the
source).  A match consumes `pat.length` characters and becomes a `mark`
piece; the source's guard makes the pattern non-empty, so the scan advances
on every step. -/
def splitGo (pat : List PatTok) (acc s : List Char) : List Piece :=
  match s with
  | [] => flushAcc acc
  | c :: rest =>
    if h : pat ≠ [] ∧ patMatchesAt pat (c :: rest) = true then
      flushAcc acc ++
        .mark ((c :: rest).take pat.length) :: splitGo pat [] ((c :: rest).drop pat.length)
    else
      splitGo pat (c :: acc) rest
termination_by s.length
decreasing_by
  · have hlen := patMatchesAt_length h.2
    have hpos : 0 < pat.length := List.length_pos.mpr h.1
    simp only [List.length_drop, List.length_cons]
    simp only [List.length_cons] at hlen
    omega
  · simp

/-- All pieces a matching text node is replaced with (`lastIndex` starts
at `0`). -/
def splitPieces (pat : List PatTok) (s : List Char) : List Piece :=
  splitGo pat [] s

/-- Text carried by one piece. -/
def pieceText : Piece → List Char
  | .plain s => s
  | .mark s => s

/-- Concatenated text of a piece list. -/
def piecesText (ps : List Piece) : List Char :=
  (ps.map pieceText).flatten

/-- The marked (highlighted) runs of a piece list, in order. -/
def marksOf (ps : List Piece) : List (List Char) :=
  ps.filterMap fun p => match p with | .mark m => some m | .plain _ => none

/-! ## The DOM

A node is a text node or an element with a tag name, a class list, an inline
style list and ordered children.  `root` is the subtree handed to
`highlightFromQuery` (the page's `main` element); its own ancestors carry no
`hlx-highlight` class, so `el.closest('.hlx-highlight')` is decided inside
the subtree. -/

/-- A DOM node. -/
inductive DomNode where
  | text (s : List Char)
  | elem (tag : String) (classes : List String) (style : List (String × String))
      (children : List DomNode)

mutual

/-- `textContent`: concatenation of all text under a node. -/
def textOf : DomNode → List Char
  | .text s => s
  | .elem _ _ _ cs => textOfL cs

/-- `textContent` of a forest, in document order. -/
def textOfL : List DomNode → List Char
  | [] => []
  | n :: ns => textOf n ++ textOfL ns

end

mutual

/-- The values of all text-node descendants (the node itself included when it
is a text node), in document order. -/
def textVals : DomNode → List (List Char)
  | .text s => [s]
  | .elem _ _ _ cs => textValsL cs

/-- `textVals` over a forest. -/
def textValsL : List DomNode → List (List Char)
  | [] => []
  | n :: ns => textVals n ++ textValsL ns

end

/-- The tag list of `isSkippableContainer`:
`['SCRIPT', 'STYLE', 'NOSCRIPT', 'IFRAME', 'OBJECT', 'EMBED', 'SVG']`. -/
def skipTags : List String :=
  ["SCRIPT", "STYLE", "NOSCRIPT", "IFRAME", "OBJECT", "EMBED", "SVG"]

/-- Does a class list carry the marker class (the `.hlx-highlight` selector)? -/
def hasMarkerClass (classes : List String) : Bool :=
  classes.contains "hlx-highlight"

/-- The marker element the source creates for one match:
`span.className = 'hlx-highlight'; span.style.backgroundColor = 'yellow';
span.textContent = match[0]`. -/
def mkMark (m : List Char) : DomNode :=
  .elem "SPAN" ["hlx-highlight"] [("backgroundColor", "yellow")] [.text m]

/-- The `DocumentFragment` contents replacing a matching text node. -/
def piecesToNodes (ps : List Piece) : List DomNode :=
  ps.map fun p => match p with | .plain r => .text r | .mark m => mkMark m

/-! ## The tree walk

`document.createTreeWalker(root, NodeFilter.SHOW_TEXT, {acceptNode})` visits
the text-node descendants of `root` in document order.  The filter rejects a
text node whose parent element is missing or skippable
(`isSkippableContainer`: tag in `skipTags`, or `el.closest('.hlx-highlight')`
finds a marker at the parent or above), skips empty values, and accepts
exactly the values `regex.test` matches.  An accepted node is replaced via
`textNode.parentNode.replaceChild(fragment, textNode)`.

Replacing the walker's current node detaches it: the DOM defines no
adjustment of a `TreeWalker`'s `currentNode` on removal (only `NodeIterator`
has pre-removing steps), so the following `walker.nextNode()` call walks up
from a parentless node, never reaches `root`, and returns `null`.  The loop
`while (walker.nextNode())` therefore ends right after the first replacement:
the walk below carries a `done` flag that stops it at the first accepted
node. -/

mutual

/-- Walk one node.  `anc` records whether some ancestor element (strictly
above this node) carries the marker class.  Returns the rewritten node, the
texts of the created marker spans (the `highlights` array) in creation
order, and whether a replacement happened (ending the walk). -/
def hlNode (pat : List PatTok) (anc : Bool) : DomNode → DomNode × List (List Char) × Bool
  | .text s => (.text s, [], false)
  | .elem tag cls st cs =>
    let self := anc || hasMarkerClass cls
    let rej := skipTags.contains tag || self
    let r := hlList pat self rej cs
    (.elem tag cls st r.1, r.2.1, r.2.2)

/-- Walk a child list.  `self` is the marker-ancestor flag for the children's
own subtrees; `rej` tells whether text children of this element are rejected
(`!parent || isSkippableContainer(parent)`). -/
def hlList (pat : List PatTok) (self rej : Bool) :
    List DomNode → List DomNode × List (List Char) × Bool
  | [] => ([], [], false)
  | .text s :: rest =>
    if !rej && !s.isEmpty && hasAnyMatch pat s then
      (piecesToNodes (splitPieces pat s) ++ rest, marksOf (splitPieces pat s), true)
    else
      let r := hlList pat self rej rest
      (.text s :: r.1, r.2.1, r.2.2)
  | .elem tag cls st cs :: rest =>
    let r := hlNode pat self (.elem tag cls st cs)
    if r.2.2 then
      (r.1 :: rest, r.2.1, true)
    else
      let r2 := hlList pat self rej rest
      (r.1 :: r2.1, r.2.1 ++ r2.2.1, r2.2.2)

end

/-! ## The browser environment and the top-level operation -/

/-- The pieces of browser state `highlightFromQuery` reads.  `query` models
the decoded `URLSearchParams` of `window.location.search`; `hash` models
`window.location.hash` (`[]` when there is no fragment identifier).
`domFault` injects a host exception thrown while
`document.createTreeWalker` / the traversal runs (malformed DOM, detached
nodes): when it is set, the walk raises before any node is touched. -/
structure Env where
  query : List (List Char × List Char)
  hash : List Char
  domFault : Bool
deriving DecidableEq, Repr

/-- `params.get(key)`: the first value recorded for the key, or `null`. -/
def getParam (q : List (List Char × List Char)) (k : List Char) : Option (List Char) :=
  (q.find? fun p => p.1 = k).map (·.2)

/-- The query parameter the highlighter is driven by. -/
def hlKey : List Char := ['h', 'i', 'g', 'h', 'l', 'i', 'g', 'h', 't']

/-- `term.replace(/\+/g, ' ')`: every literal plus sign becomes a space. -/
def plusToSpace (s : List Char) : List Char :=
  s.map fun c => if c = '+' then ' ' else c

/-- `term.trim()`: strip leading and trailing whitespace. -/
def trimL (s : List Char) : List Char :=
  ((s.dropWhile Char.isWhitespace).reverse.dropWhile Char.isWhitespace).reverse

/-- The two emptiness guards of the source:
`let term = params.get('highlight'); if (!term) return;` and
`term = term.replace(/\+/g, ' ').trim(); if (!term) return;`.
Returns the decoded term, or `none` when the function does nothing. -/
def decodeTerm : Option (List Char) → Option (List Char)
  | none => none
  | some t =>
    if t = [] then none
    else
      let t2 := trimL (plusToSpace t)
      if t2 = [] then none else some t2

/-- The observable result of one `highlightFromQuery` call: the rewritten
subtree, the `highlights` array (texts of the created marker spans, in
creation order), the `scrollIntoView` call if one was issued (first marker's
text together with the `behavior` and `block` options), and the console
output. -/
structure Outcome where
  dom : DomNode
  markers : List (List Char)
  scrolled : Option (List Char × String × String)
  console : List String

/-- The body of the `try` block.  `Except.error` is a host exception escaping
the DOM traversal (injected by `Env.domFault`); it is raised after the term
guards and before any mutation. -/
def highlightBody (env : Env) (root : DomNode) : Except String Outcome :=
  match decodeTerm (getParam env.query hlKey) with
  | none => .ok ⟨root, [], none, []⟩
  | some t =>
    if env.domFault then .error "DOMException" else
    let pat := patOf t
    let r := hlNode pat false root
    .ok ⟨r.1, r.2.1,
      if env.hash = [] then r.2.1.head?.map (fun m => (m, "smooth", "center")) else none,
      []⟩

/-- `highlightFromQuery(root)`: run the body; any exception is caught at the
top level, logged with `console.warn('Highlighting failed:', e)`, and the
function returns normally.  The modelled fault fires before any mutation, so
the caught branch leaves the subtree as it was. -/
def highlightFromQuery (env : Env) (root : DomNode) : Outcome :=
  match highlightBody env root with
  | .ok o => o
  | .error e => ⟨root, [], none, ["Highlighting failed: " ++ e]⟩

/-! ## Specification-side matcher and concrete inputs -/

/-- Specification-side matcher: the term matches at the start of `s` exactly
when the first `t.length` characters of `s` equal the term up to ASCII case. -/
def litMatchesCI (t s : List Char) : Bool :=
  (s.take t.length).map Char.toLower = t.map Char.toLower

/-- The term `cat`. -/
def termCat : List Char := ['c', 'a', 't']

/-- `?highlight=cat`, no fragment identifier, healthy DOM. -/
def envCat : Env := ⟨[(hlKey, termCat)], [], false⟩

/-- Two paragraphs whose text nodes both contain `cat`. -/
def rootTwoCats : DomNode :=
  .elem "MAIN" [] [] [.elem "P" [] [] [.text termCat], .elem "P" [] [] [.text termCat]]

/-- A single text node `cat`. -/
def rootOneCat : DomNode := .elem "MAIN" [] [] [.text termCat]

/-- A single text node `cat cat`. -/
def rootCatCat : DomNode :=
  .elem "MAIN" [] [] [.text ['c', 'a', 't', ' ', 'c', 'a', 't']]

/-- The term `cat` split across two text nodes: `ca` then `t` inside `<b>`. -/
def rootSplitCat : DomNode :=
  .elem "MAIN" [] [] [.text ['c', 'a'], .elem "B" [] [] [.text ['t']]]

/-- `?highlight=world`, no fragment identifier. -/
def envWorld : Env := ⟨[(hlKey, ['w', 'o', 'r', 'l', 'd'])], [], false⟩

/-- A single text node `Hello World`. -/
def rootHello : DomNode :=
  .elem "MAIN" [] [] [.text ['H', 'e', 'l', 'l', 'o', ' ', 'W', 'o', 'r', 'l', 'd']]

/-- `?highlight=a.b` (a term with a regex metacharacter). -/
def envDotAB : Env := ⟨[(hlKey, ['a', '.', 'b'])], [], false⟩

/-- A single text node `a.b and axb`. -/
def rootDotAB : DomNode :=
  .elem "MAIN" [] [] [.text ['a', '.', 'b', ' ', 'a', 'n', 'd', ' ', 'a', 'x', 'b']]

/-- `?highlight=highlight`. -/
def envWordHighlight : Env :=
  ⟨[(hlKey, ['h', 'i', 'g', 'h', 'l', 'i', 'g', 'h', 't'])], [], false⟩

/-- A script element containing the text `highlight text`. -/
def rootScript : DomNode :=
  .elem "MAIN" [] []
    [.elem "SCRIPT" [] []
      [.text ['h', 'i', 'g', 'h', 'l', 'i', 'g', 'h', 't', ' ', 't', 'e', 'x', 't']]]

/-- `?highlight=%2B%2B` decoded: the raw term `++`, all spaces after
plus-decoding. -/
def envPlusses : Env := ⟨[(hlKey, ['+', '+'])], [], false⟩

/-- No `highlight` parameter at all. -/
def envNoParam : Env := ⟨[], [], false⟩

/-- `?highlight=cat` with a fragment identifier `#x` present. -/
def envCatHash : Env := ⟨[(hlKey, termCat)], ['#', 'x'], false⟩

/-- `?highlight=cat` on a DOM whose traversal throws. -/
def envCatFault : Env := ⟨[(hlKey, termCat)], [], true⟩

/-! ## Text-content preservation -/

theorem piecesText_cons (p : Piece) (ps : List Piece) :
    piecesText (p :: ps) = pieceText p ++ piecesText ps := by
  simp [piecesText]

theorem piecesText_append (a b : List Piece) :
    piecesText (a ++ b) = piecesText a ++ piecesText b := by
  simp [piecesText]

theorem piecesText_flushAcc (acc : List Char) :
    piecesText (flushAcc acc) = acc.reverse := by
  by_cases hacc : acc = [] <;> simp [flushAcc, hacc, piecesText, pieceText]

/-- The per-node split loop is content-preserving: the pieces concatenate
back to the pending plain run followed by the rest of the node's text. -/
theorem splitGo_text (pat : List PatTok) (acc s : List Char) :
    piecesText (splitGo pat acc s) = acc.reverse ++ s := by
  induction acc, s using splitGo.induct pat with
  | case1 acc => simp [splitGo, piecesText_flushAcc]
  | case2 acc c rest h ih =>
    rw [splitGo, dif_pos h]
    simp [piecesText_append, piecesText_cons, piecesText_flushAcc, pieceText, ih]
  | case3 acc c rest h ih =>
    rw [splitGo, dif_neg h]
    simpa using ih

/-- The replacement fragment of a matching text node carries exactly the
node's text. -/
theorem splitPieces_text (pat : List PatTok) (s : List Char) :
    piecesText (splitPieces pat s) = s := by
  simpa using splitGo_text pat [] s

theorem textOfL_append (a b : List DomNode) :
    textOfL (a ++ b) = textOfL a ++ textOfL b := by
  induction a with
  | nil => simp [textOfL]
  | cons n ns ih => simp [textOfL, ih]

theorem textOfL_piecesToNodes (ps : List Piece) :
    textOfL (piecesToNodes ps) = piecesText ps := by
  induction ps with
  | nil => simp [piecesToNodes, textOfL, piecesText]
  | cons p ps ih =>
    cases p <;>
      simp [piecesToNodes, textOfL, piecesText_cons, pieceText, mkMark, textOf, ih]
      <;> simpa [piecesToNodes] using ih

mutual

/-- The walk never changes the concatenated text of a node. -/
theorem hlNode_text (pat : List PatTok) (anc : Bool) (n : DomNode) :
    textOf (hlNode pat anc n).1 = textOf n := by
  cases n with
  | text s => simp [hlNode]
  | elem tag cls st cs =>
    simp only [hlNode, textOf]
    exact hlList_text pat _ _ cs

/-- The walk never changes the concatenated text of a forest. -/
theorem hlList_text (pat : List PatTok) (self rej : Bool) (cs : List DomNode) :
    textOfL (hlList pat self rej cs).1 = textOfL cs := by
  cases cs with
  | nil => simp [hlList]
  | cons n rest =>
    cases n with
    | text s =>
      rw [hlList]
      by_cases hc : (!rej && !s.isEmpty && hasAnyMatch pat s) = true
      · simp only [hc, if_true]
        rw [textOfL_append, textOfL_piecesToNodes, splitPieces_text]
        simp [textOfL, textOf]
      · simp only [Bool.not_eq_true] at hc
        simp only [hc, if_false]
        simp only [textOfL]
        rw [hlList_text pat self rej rest]
    | elem tag cls st ccs =>
      rw [hlList]
      by_cases hd : (hlNode pat self (.elem tag cls st ccs)).2.2 = true
      · simp only [hd, if_true]
        simp only [textOfL]
        rw [hlNode_text pat self (.elem tag cls st ccs)]
      · simp only [Bool.not_eq_true] at hd
        simp only [hd, if_false]
        simp only [textOfL]
        rw [hlNode_text pat self (.elem tag cls st ccs), hlList_text pat self rej rest]

end

/-! ## Escaping makes matching literal -/

/-- Lexing the escaped term yields exactly its characters as literal tokens:
no metacharacter survives as an operator. -/
theorem lexPat_escape (t : List Char) : lexPat (escapeRegex t) = t.map PatTok.lit := by
  induction t with
  | nil => simp [escapeRegex, lexPat]
  | cons c cs ih =>
    by_cases hsp : regexSpecials.contains c = true
    · simp only [escapeRegex, List.flatMap_cons, if_pos hsp, List.cons_append]
      rw [lexPat.eq_def]
      simp only [List.cons.injEq, reduceIte]
      simpa [escapeRegex] using ih
    · have hb : ¬c = '\\' := by
        intro he
        exact hsp (by rw [he]; decide)
      have hd : ¬c = '.' := by
        intro he
        exact hsp (by rw [he]; decide)
      simp only [escapeRegex, List.flatMap_cons, if_neg hsp, List.singleton_append]
      rw [lexPat.eq_def]
      simp only [if_neg hb, if_neg hd, List.cons.injEq]
      simpa [escapeRegex] using ih

/-! ## A walk that accepts nothing rewrites nothing -/

mutual

/-- When no text-node value under `n` is matched, the walk leaves the node
untouched, creates no marker, and raises no `done` flag. -/
theorem hlNode_nomatch (pat : List PatTok) (anc : Bool) (n : DomNode)
    (h : ∀ s ∈ textVals n, hasAnyMatch pat s = false) :
    hlNode pat anc n = (n, [], false) := by
  cases n with
  | text s => simp [hlNode]
  | elem tag cls st cs =>
    have hcs : ∀ s ∈ textValsL cs, hasAnyMatch pat s = false := by
      intro s hs
      exact h s (by simpa [textVals] using hs)
    rw [hlNode, hlList_nomatch pat _ _ cs hcs]

/-- `hlNode_nomatch` for a child list. -/
theorem hlList_nomatch (pat : List PatTok) (self rej : Bool) (cs : List DomNode)
    (h : ∀ s ∈ textValsL cs, hasAnyMatch pat s = false) :
    hlList pat self rej cs = (cs, [], false) := by
  cases cs with
  | nil => simp [hlList]
  | cons n rest =>
    have hrest : ∀ s ∈ textValsL rest, hasAnyMatch pat s = false := by
      intro s hs
      exact h s (by simp [textValsL, hs])
    cases n with
    | text s =>
      have hs : hasAnyMatch pat s = false := h s (by simp [textValsL, textVals])
      rw [hlList, hlList_nomatch pat self rej rest hrest]
      simp [hs]
    | elem tag cls st ccs =>
      have hn : ∀ s ∈ textVals (.elem tag cls st ccs), hasAnyMatch pat s = false := by
        intro s hs
        exact h s (by simp [textValsL, hs])
      rw [hlList, hlNode_nomatch pat self (.elem tag cls st ccs) hn,
        hlList_nomatch pat self rej rest hrest]
      simp

end

/-! ## Text children of a skippable container are never rewritten -/

/-- The walk keeps an element's identity (tag, classes, style): only its
child list can change. -/
theorem hlNode_elem_shape (pat : List PatTok) (anc : Bool) (tag : String)
    (cls : List String) (st : List (String × String)) (cs : List DomNode) :
    (hlNode pat anc (.elem tag cls st cs)).1 =
      .elem tag cls st
        (hlList pat (anc || hasMarkerClass cls)
          (skipTags.contains tag || (anc || hasMarkerClass cls)) cs).1 := by
  rw [hlNode]

/-- With the rejection flag set (`isSkippableContainer(parent)` true), a walk
over a child list keeps the list's length and leaves every text child
exactly as it was: only element children can change, and only inside. -/
theorem hlList_rej_text_children (pat : List PatTok) (self : Bool) (cs : List DomNode) :
    (hlList pat self true cs).1.length = cs.length ∧
      ∀ i (h1 : i < cs.length) (h2 : i < (hlList pat self true cs).1.length)
        (s : List Char), cs.get ⟨i, h1⟩ = .text s →
          (hlList pat self true cs).1.get ⟨i, h2⟩ = .text s := by
  induction cs with
  | nil => simp [hlList]
  | cons n rest ih =>
    cases n with
    | text s0 =>
      have hstep : hlList pat self true (.text s0 :: rest) =
          (.text s0 :: (hlList pat self true rest).1,
            (hlList pat self true rest).2.1, (hlList pat self true rest).2.2) := by
        rw [hlList]
        simp
      rw [hstep]
      refine ⟨by simpa using ih.1, ?_⟩
      intro i h1 h2 s hget
      cases i with
      | zero => simpa using hget
      | succ j =>
        simp only [List.get_cons_succ] at hget ⊢
        exact ih.2 j (by simpa using h1) (by simpa [ih.1] using h2) s hget
    | elem tag cls st ccs =>
      by_cases hd : (hlNode pat self (.elem tag cls st ccs)).2.2 = true
      · have hstep : hlList pat self true (.elem tag cls st ccs :: rest) =
            ((hlNode pat self (.elem tag cls st ccs)).1 :: rest,
              (hlNode pat self (.elem tag cls st ccs)).2.1, true) := by
          rw [hlList]
          simp [hd]
        rw [hstep]
        refine ⟨by simp, ?_⟩
        intro i h1 h2 s hget
        cases i with
        | zero =>
          exact absurd (show DomNode.elem tag cls st ccs = DomNode.text s from hget)
            (fun hc => DomNode.noConfusion hc)
        | succ j =>
          simp only [List.get_cons_succ] at hget ⊢
          exact hget
      · have hstep : hlList pat self true (.elem tag cls st ccs :: rest) =
            ((hlNode pat self (.elem tag cls st ccs)).1 :: (hlList pat self true rest).1,
              (hlNode pat self (.elem tag cls st ccs)).2.1 ++
                (hlList pat self true rest).2.1,
              (hlList pat self true rest).2.2) := by
          rw [hlList]
          simp [hd]
        rw [hstep]
        refine ⟨by simpa using ih.1, ?_⟩
        intro i h1 h2 s hget
        cases i with
        | zero =>
          exact absurd (show DomNode.elem tag cls st ccs = DomNode.text s from hget)
            (fun hc => DomNode.noConfusion hc)
        | succ j =>
          simp only [List.get_cons_succ] at hget ⊢
          exact ih.2 j (by simpa using h1) (by simpa [ih.1] using h2) s hget

/-- A pattern of literal tokens matches exactly the case-insensitive literal
occurrences of the term. -/
theorem patMatchesAt_lits (t s : List Char) :
    patMatchesAt (t.map PatTok.lit) s = litMatchesCI t s := by
  induction t generalizing s with
  | nil => simp [patMatchesAt, litMatchesCI]
  | cons a ts ih =>
    cases s with
    | nil => simp [patMatchesAt, litMatchesCI]
    | cons c cs =>
      simp [patMatchesAt, tokMatches, litMatchesCI, ih]
      congr 1
      exact decide_eq_decide.mpr ⟨fun h => h.symm, fun h => h.symm⟩

/-! ## What the marks are -/

theorem marksOf_append (a b : List Piece) :
    marksOf (a ++ b) = marksOf a ++ marksOf b := by
  simp [marksOf]

theorem marksOf_flushAcc (acc : List Char) : marksOf (flushAcc acc) = [] := by
  by_cases hacc : acc = [] <;> simp [flushAcc, hacc, marksOf]

/-- A match only looks at the first `pat.length` characters. -/
theorem patMatchesAt_take {pat : List PatTok} {s : List Char}
    (h : patMatchesAt pat s = true) :
    patMatchesAt pat (s.take pat.length) = true := by
  induction pat generalizing s with
  | nil => simp [patMatchesAt]
  | cons t ts ih =>
    cases s with
    | nil => simp [patMatchesAt] at h
    | cons c cs =>
      simp only [patMatchesAt, Bool.and_eq_true] at h
      simp only [List.length_cons, List.take_succ_cons, patMatchesAt,
        Bool.and_eq_true]
      exact ⟨h.1, ih h.2⟩

/-- Every mark the split loop collects is an actual match: it matches the
pattern, it is exactly `pat.length` characters long, and it is a contiguous
run of the node's text. -/
theorem splitGo_marks (pat : List PatTok) (acc s : List Char) :
    ∀ m ∈ marksOf (splitGo pat acc s),
      patMatchesAt pat m = true ∧ m.length = pat.length ∧
        ∃ u v, s = u ++ (m ++ v) := by
  induction acc, s using splitGo.induct pat with
  | case1 acc => simp [splitGo, marksOf_flushAcc]
  | case2 acc c rest h ih =>
    rw [splitGo, dif_pos h]
    intro m hm
    rw [marksOf_append, marksOf_flushAcc] at hm
    simp only [List.nil_append, marksOf, List.filterMap_cons] at hm
    rcases List.mem_cons.mp hm with hm | hm
    · subst hm
      refine ⟨patMatchesAt_take h.2, ?_, [], (c :: rest).drop pat.length, ?_⟩
      · simp [List.length_take]
        exact patMatchesAt_length h.2
      · simp [List.take_append_drop]
    · obtain ⟨hmt, hml, u, v, huv⟩ := ih m (by simpa [marksOf] using hm)
      refine ⟨hmt, hml, (c :: rest).take pat.length ++ u, v, ?_⟩
      conv_lhs => rw [← List.take_append_drop pat.length (c :: rest)]
      rw [huv]
      simp
  | case3 acc c rest h ih =>
    rw [splitGo, dif_neg h]
    intro m hm
    obtain ⟨hmt, hml, u, v, huv⟩ := ih m hm
    exact ⟨hmt, hml, c :: u, v, by simp [huv]⟩

/-- The number of matches collected in one text node is bounded by the
node's length: every match consumes at least one character. -/
theorem splitGo_marks_count (pat : List PatTok) (acc s : List Char) :
    (marksOf (splitGo pat acc s)).length ≤ s.length := by
  induction acc, s using splitGo.induct pat with
  | case1 acc => simp [splitGo, marksOf_flushAcc]
  | case2 acc c rest h ih =>
    rw [splitGo, dif_pos h]
    rw [marksOf_append, marksOf_flushAcc]
    have hlen := patMatchesAt_length h.2
    have hpos : 0 < pat.length := List.length_pos.mpr h.1
    simp only [List.nil_append, marksOf, List.filterMap_cons] at ih ⊢
    simp only [List.length_cons, List.length_drop] at ih ⊢
    simp only [List.length_cons] at hlen
    omega
  | case3 acc c rest h ih =>
    rw [splitGo, dif_neg h]
    simpa using Nat.le_succ_of_le ih

/-! ## Plain runs contain no leftover match -/

/-- Extending the input to the right cannot destroy a match at position 0. -/
theorem patMatchesAt_append {pat : List PatTok} {t : List Char}
    (h : patMatchesAt pat t = true) (u : List Char) :
    patMatchesAt pat (t ++ u) = true := by
  induction pat generalizing t with
  | nil => simp [patMatchesAt]
  | cons a ts ih =>
    cases t with
    | nil => simp [patMatchesAt] at h
    | cons c cs =>
      simp only [patMatchesAt, Bool.and_eq_true] at h
      simp only [List.cons_append, patMatchesAt, Bool.and_eq_true]
      exact ⟨h.1, ih h.2⟩

/-- `regex.test` is position-wise: it fails exactly when no suffix matches. -/
theorem hasAnyMatch_eq_false_iff (pat : List PatTok) (hp : pat ≠ [])
    (s : List Char) :
    hasAnyMatch pat s = false ↔ ∀ i, patMatchesAt pat (s.drop i) = false := by
  induction s with
  | nil =>
    cases pat with
    | nil => exact absurd rfl hp
    | cons t ts => simp [hasAnyMatch, patMatchesAt]
  | cons c cs ih =>
    simp only [hasAnyMatch, Bool.or_eq_false_iff]
    constructor
    · rintro ⟨h0, hrest⟩ i
      cases i with
      | zero => simpa using h0
      | succ j => simpa using (ih.mp hrest) j
    · intro hall
      refine ⟨by simpa using hall 0, ih.mpr fun j => by simpa using hall (j + 1)⟩

/-- After the split, no plain run still contains a match of the pattern:
every maximal unmatched gap was checked position by position.  The invariant
says the scanner has already ruled out a match at every position covered by
the pending run `acc`. -/
theorem splitGo_plain_nomatch (pat : List PatTok) (hp : pat ≠ []) :
    ∀ acc s,
      (∀ i, i < acc.length → patMatchesAt pat ((acc.reverse ++ s).drop i) = false) →
      ∀ r, Piece.plain r ∈ splitGo pat acc s → hasAnyMatch pat r = false := by
  intro acc s
  induction acc, s using splitGo.induct pat with
  | case1 acc =>
    intro hinv r hr
    rw [splitGo] at hr
    by_cases hacc : acc = []
    · simp [flushAcc, hacc] at hr
    · simp only [flushAcc, hacc, if_false, List.mem_singleton, Piece.plain.injEq] at hr
      subst hr
      rw [hasAnyMatch_eq_false_iff pat hp]
      intro i
      by_cases hi : i < acc.length
      · simpa using hinv i hi
      · rw [List.drop_eq_nil_of_le (by simpa using Nat.le_of_not_lt hi)]
        cases pat with
        | nil => exact absurd rfl hp
        | cons t ts => rfl
  | case2 acc c rest h ih =>
    intro hinv r hr
    rw [splitGo, dif_pos h] at hr
    rcases List.mem_append.mp hr with hr | hr
    · by_cases hacc : acc = []
      · simp [flushAcc, hacc] at hr
      · simp only [flushAcc, hacc, if_false, List.mem_singleton, Piece.plain.injEq] at hr
        subst hr
        rw [hasAnyMatch_eq_false_iff pat hp]
        intro i
        by_cases hi : i < acc.length
        · have hfull := hinv i hi
          by_contra hmt
          rw [Bool.not_eq_false] at hmt
          have : patMatchesAt pat ((acc.reverse ++ (c :: rest)).drop i) = true := by
            rw [List.drop_append_of_le_length (by simpa using Nat.le_of_lt hi)]
            exact patMatchesAt_append hmt (c :: rest)
          rw [hfull] at this
          exact Bool.noConfusion this
        · rw [List.drop_eq_nil_of_le (by simpa using Nat.le_of_not_lt hi)]
          cases pat with
          | nil => exact absurd rfl hp
          | cons t ts => rfl
    · rcases List.mem_cons.mp hr with hr | hr
      · exact absurd hr (by simp)
      · exact ih (by simp) r hr
  | case3 acc c rest h ih =>
    intro hinv r hr
    rw [splitGo, dif_neg h] at hr
    refine ih ?_ r hr
    intro i hi
    have heq : (c :: acc).reverse ++ rest = acc.reverse ++ (c :: rest) := by simp
    rw [heq]
    simp only [List.length_cons] at hi
    rcases Nat.lt_succ_iff_lt_or_eq.mp hi with hi | hi
    · exact hinv i hi
    · subst hi
      have hdrop : (acc.reverse ++ (c :: rest)).drop acc.length = c :: rest := by
        have : acc.length = acc.reverse.length := by simp
        rw [this, List.drop_left]
      rw [hdrop]
      rcases not_and_or.mp h with hc | hc
      · exact absurd hp (by simpa using hc)
      · simpa using Bool.not_eq_true _ |>.mp hc

/-! ## Every created marker comes from inside a single text node -/

mutual

/-- Every marker a walk creates wraps a contiguous run of one single
text-node value, and that run matches the pattern. -/
theorem hlNode_marks (pat : List PatTok) (anc : Bool) (n : DomNode) :
    ∀ m ∈ (hlNode pat anc n).2.1,
      ∃ s ∈ textVals n, patMatchesAt pat m = true ∧ m.length = pat.length ∧
        ∃ u v, s = u ++ (m ++ v) := by
  cases n with
  | text s => simp [hlNode]
  | elem tag cls st cs =>
    intro m hm
    rw [hlNode] at hm
    obtain ⟨s, hs, hrest⟩ := hlList_marks pat _ _ cs m hm
    exact ⟨s, by simpa [textVals] using hs, hrest⟩

/-- `hlNode_marks` for a child list. -/
theorem hlList_marks (pat : List PatTok) (self rej : Bool) (cs : List DomNode) :
    ∀ m ∈ (hlList pat self rej cs).2.1,
      ∃ s ∈ textValsL cs, patMatchesAt pat m = true ∧ m.length = pat.length ∧
        ∃ u v, s = u ++ (m ++ v) := by
  cases cs with
  | nil => simp [hlList]
  | cons n rest =>
    cases n with
    | text s0 =>
      intro m hm
      rw [hlList] at hm
      by_cases hc : (!rej && !s0.isEmpty && hasAnyMatch pat s0) = true
      · rw [if_pos hc] at hm
        simp only at hm
        obtain ⟨hmt, hml, u, v, huv⟩ := splitGo_marks pat [] s0 m hm
        exact ⟨s0, by simp [textValsL, textVals], hmt, hml, u, v, huv⟩
      · rw [if_neg hc] at hm
        simp only at hm
        obtain ⟨s, hs, hrest⟩ := hlList_marks pat self rej rest m hm
        exact ⟨s, by simp [textValsL, hs], hrest⟩
    | elem tag cls st ccs =>
      intro m hm
      rw [hlList] at hm
      by_cases hd : (hlNode pat self (.elem tag cls st ccs)).2.2 = true
      · rw [if_pos hd] at hm
        simp only at hm
        obtain ⟨s, hs, hrest⟩ := hlNode_marks pat self (.elem tag cls st ccs) m hm
        exact ⟨s, by simp [textValsL, hs], hrest⟩
      · rw [if_neg hd] at hm
        simp only at hm
        rcases List.mem_append.mp hm with hm | hm
        · obtain ⟨s, hs, hrest⟩ := hlNode_marks pat self (.elem tag cls st ccs) m hm
          exact ⟨s, by simp [textValsL, hs], hrest⟩
        · obtain ⟨s, hs, hrest⟩ := hlList_marks pat self rej rest m hm
          exact ⟨s, by simp [textValsL, hs], hrest⟩

end

/-! ## Top-level case analysis -/

/-- What one call does, by cases: the term guards fire and nothing happens;
or the traversal throws; or the walk runs and the outcome is assembled from
its result. -/
theorem highlightBody_cases (env : Env) (root : DomNode) :
    (decodeTerm (getParam env.query hlKey) = none ∧
      highlightBody env root = .ok ⟨root, [], none, []⟩) ∨
    (∃ t, decodeTerm (getParam env.query hlKey) = some t ∧
      ((env.domFault = true ∧ highlightBody env root = .error "DOMException") ∨
        (env.domFault = false ∧
          highlightBody env root = .ok
            ⟨(hlNode (patOf t) false root).1, (hlNode (patOf t) false root).2.1,
              (if env.hash = [] then
                (hlNode (patOf t) false root).2.1.head?.map
                  (fun m => (m, "smooth", "center"))
              else none), []⟩))) := by
  cases hdt : decodeTerm (getParam env.query hlKey) with
  | none =>
    left
    exact ⟨rfl, by simp only [highlightBody, hdt]⟩
  | some t =>
    right
    refine ⟨t, rfl, ?_⟩
    by_cases hf : env.domFault = true
    · left
      exact ⟨hf, by simp only [highlightBody, hdt, hf, if_true]⟩
    · right
      refine ⟨by simpa using hf, ?_⟩
      simp only [highlightBody, hdt]
      rw [if_neg hf]

/-- A term the guards let through is non-empty. -/
theorem decodeTerm_ne_nil {raw : Option (List Char)} {t : List Char}
    (h : decodeTerm raw = some t) : t ≠ [] := by
  cases raw with
  | none => exact Option.noConfusion h
  | some t0 =>
    simp only [decodeTerm] at h
    split_ifs at h with h1 h2
    rw [Option.some.injEq] at h
    subst h
    exact h2

/-- The pattern built from a non-empty term is non-empty. -/
theorem patOf_ne_nil {t : List Char} (h : t ≠ []) : patOf t ≠ [] := by
  rw [patOf, lexPat_escape]
  simpa using h

/-! ## The claims -/

/-- C1: for every root and environment, the concatenation of all text content
under the root after `highlightFromQuery` equals the concatenation before the
call: no characters are added, removed, or reordered. -/
theorem highlight_preserves_text_content (env : Env) (root : DomNode) :
    textOf (highlightFromQuery env root).dom = textOf root := by
  rcases highlightBody_cases env root with ⟨-, hb⟩ | ⟨t, -, ⟨-, hb⟩ | ⟨-, hb⟩⟩
  · simp only [highlightFromQuery, hb]
  · simp only [highlightFromQuery, hb]
  · simp only [highlightFromQuery, hb]
    exact hlNode_text _ _ _

/-- C3: `highlightFromQuery` never propagates an exception.  Whenever the body
raises, the error is caught at the top level, logged as a
`console.warn('Highlighting failed:', e)` entry, and the call still produces
a normal `Outcome`; whenever the body succeeds, its outcome (with an empty
console) is returned as is.  The return type of `highlightFromQuery` has no
error channel at all. -/
theorem highlight_catches_and_logs_all_errors (env : Env) (root : DomNode) :
    (∀ e, highlightBody env root = .error e →
      highlightFromQuery env root = ⟨root, [], none, ["Highlighting failed: " ++ e]⟩) ∧
    (∀ o, highlightBody env root = .ok o →
      highlightFromQuery env root = o ∧ o.console = []) := by
  constructor
  · intro e he
    simp only [highlightFromQuery, he]
  · intro o ho
    refine ⟨by simp only [highlightFromQuery, ho], ?_⟩
    rcases highlightBody_cases env root with ⟨-, hb⟩ | ⟨t, -, ⟨-, hb⟩ | ⟨-, hb⟩⟩
    · have h2 : o = ⟨root, [], none, []⟩ := Except.ok.inj (ho.symm.trans hb)
      rw [h2]
    · exact absurd (ho.symm.trans hb) (by simp)
    · have h2 := Except.ok.inj (ho.symm.trans hb)
      rw [h2]

/-- Witness for C3: with `?highlight=cat` on a DOM whose traversal throws,
the exception is swallowed, a warning is logged, and the call returns
normally with the subtree untouched. -/
theorem highlight_catches_and_logs_all_errors_witness :
    highlightFromQuery envCatFault rootOneCat =
      ⟨rootOneCat, [], none, ["Highlighting failed: " ++ "DOMException"]⟩ :=
  (highlight_catches_and_logs_all_errors envCatFault rootOneCat).1 "DOMException"
    (by simp [highlightBody, decodeTerm, getParam, hlKey, trimL, plusToSpace,
      envCatFault, termCat])

/-- C7: when the term is absent, or empty after plus-decoding and trimming,
or has no occurrence in any text node of the root, the call mutates nothing:
the subtree is returned exactly as it was, no marker exists and no scroll is
issued. -/
theorem highlight_noop_on_empty_or_unmatched_term (env : Env) (root : DomNode)
    (hcase : decodeTerm (getParam env.query hlKey) = none ∨
      ∀ t, decodeTerm (getParam env.query hlKey) = some t →
        ∀ s ∈ textVals root, hasAnyMatch (patOf t) s = false) :
    (highlightFromQuery env root).dom = root ∧
      (highlightFromQuery env root).markers = [] ∧
      (highlightFromQuery env root).scrolled = none := by
  rcases highlightBody_cases env root with ⟨-, hb⟩ | ⟨t, hdt, ⟨-, hb⟩ | ⟨-, hb⟩⟩
  · simp [highlightFromQuery, hb]
  · simp [highlightFromQuery, hb]
  · rcases hcase with hnone | hmatch
    · rw [hnone] at hdt
      exact Option.noConfusion hdt
    · have hnm := hlNode_nomatch (patOf t) false root (hmatch t hdt)
      simp only [highlightFromQuery, hb, hnm]
      refine ⟨by simp, by simp, ?_⟩
      by_cases hh : env.hash = [] <;> simp [hh]

/-- Witness for C7: the raw term `++` is all spaces after plus-decoding, so
even on a root that contains `cat`, a `?highlight=%2B%2B` call changes
nothing. -/
theorem highlight_noop_on_empty_or_unmatched_term_witness :
    (highlightFromQuery envPlusses rootOneCat).dom = rootOneCat ∧
      (highlightFromQuery envPlusses rootOneCat).markers = [] ∧
      (highlightFromQuery envPlusses rootOneCat).scrolled = none :=
  highlight_noop_on_empty_or_unmatched_term envPlusses rootOneCat
    (Or.inl (by simp [decodeTerm, getParam, hlKey, trimL, plusToSpace, envPlusses]))

/-- C8: after the traversal, the first created marker receives a smooth,
centering scroll-into-view call exactly when at least one marker was created
and the location carries no fragment identifier; otherwise no scroll call is
issued. -/
theorem highlight_scrolls_first_marker_iff_no_hash (env : Env) (root : DomNode) :
    ((highlightFromQuery env root).markers ≠ [] → env.hash = [] →
      ∃ m, (highlightFromQuery env root).markers.head? = some m ∧
        (highlightFromQuery env root).scrolled = some (m, "smooth", "center")) ∧
    (((highlightFromQuery env root).markers = [] ∨ env.hash ≠ []) →
      (highlightFromQuery env root).scrolled = none) := by
  rcases highlightBody_cases env root with ⟨-, hb⟩ | ⟨t, -, ⟨-, hb⟩ | ⟨-, hb⟩⟩
  · have hout : highlightFromQuery env root = ⟨root, [], none, []⟩ := by
      simp only [highlightFromQuery, hb]
    rw [hout]
    exact ⟨fun hm _ => absurd rfl hm, fun _ => rfl⟩
  · have hout : highlightFromQuery env root =
        ⟨root, [], none, ["Highlighting failed: " ++ "DOMException"]⟩ := by
      simp only [highlightFromQuery, hb]
    rw [hout]
    exact ⟨fun hm _ => absurd rfl hm, fun _ => rfl⟩
  · have hout : highlightFromQuery env root =
        ⟨(hlNode (patOf t) false root).1, (hlNode (patOf t) false root).2.1,
          (if env.hash = [] then
            (hlNode (patOf t) false root).2.1.head?.map
              (fun m => (m, "smooth", "center"))
          else none), []⟩ := by
      simp only [highlightFromQuery, hb]
    rw [hout]
    dsimp only
    constructor
    · intro hm hh
      rw [if_pos hh]
      cases hms : (hlNode (patOf t) false root).2.1 with
      | nil => exact absurd hms hm
      | cons a as => exact ⟨a, rfl, rfl⟩
    · rintro (hm | hh)
      · rw [hm]
        simp
      · rw [if_neg hh]

/-- Witness for C8: `?highlight=cat` with no hash on a root containing `cat`
creates a marker and scrolls it into view, smoothly and centered. -/
theorem highlight_scrolls_first_marker_iff_no_hash_witness :
    ∃ m, (highlightFromQuery envCat rootOneCat).markers.head? = some m ∧
      (highlightFromQuery envCat rootOneCat).scrolled = some (m, "smooth", "center") :=
  (highlight_scrolls_first_marker_iff_no_hash envCat rootOneCat).1
    (by
      simp [highlightFromQuery, highlightBody, decodeTerm, getParam, hlKey, trimL,
        plusToSpace, patOf, escapeRegex, lexPat, regexSpecials, hlNode, hlList,
        hasAnyMatch, patMatchesAt, tokMatches, splitPieces, splitGo, flushAcc,
        piecesToNodes, marksOf, mkMark, skipTags, hasMarkerClass, envCat,
        rootOneCat, termCat])
    rfl

/-- C4: a text node whose parent element is in the skip-set
(script/style/noscript/iframe/object/embed/svg), or that lies inside a
previously inserted marker, is never modified: walking such an element keeps
its child count and every direct text child exactly as it was, and the
spec's script example (`<script>highlight text</script>` with term
`highlight`) comes out untouched, with no marker anywhere. -/
theorem highlight_skips_skippable_containers (pat : List PatTok) (anc : Bool)
    (tag : String) (cls : List String) (st : List (String × String))
    (cs : List DomNode)
    (hskip : (skipTags.contains tag || (anc || hasMarkerClass cls)) = true) :
    ((hlNode pat anc (.elem tag cls st cs)).1 =
      .elem tag cls st (hlList pat (anc || hasMarkerClass cls) true cs).1) ∧
    (hlList pat (anc || hasMarkerClass cls) true cs).1.length = cs.length ∧
    (∀ i (h1 : i < cs.length)
        (h2 : i < (hlList pat (anc || hasMarkerClass cls) true cs).1.length)
        (s : List Char), cs.get ⟨i, h1⟩ = .text s →
        (hlList pat (anc || hasMarkerClass cls) true cs).1.get ⟨i, h2⟩ = .text s) ∧
    highlightFromQuery envWordHighlight rootScript = ⟨rootScript, [], none, []⟩ := by
  refine ⟨?_, (hlList_rej_text_children pat _ cs).1,
    (hlList_rej_text_children pat _ cs).2, ?_⟩
  · rw [hlNode_elem_shape, hskip]
  · simp [highlightFromQuery, highlightBody, decodeTerm, getParam, hlKey, trimL,
        plusToSpace, patOf, escapeRegex, lexPat, regexSpecials, hlNode, hlList,
        hasAnyMatch, patMatchesAt, tokMatches, splitPieces, splitGo, flushAcc,
        piecesToNodes, marksOf, mkMark, skipTags, hasMarkerClass, envWordHighlight, rootScript]

/-- Witness for C4: walking a `<script>` element containing `cat` with the
pattern for `cat` leaves its text child untouched, and the spec's script
example is untouched end to end. -/
theorem highlight_skips_skippable_containers_witness :
    (hlNode (patOf termCat) false (.elem "SCRIPT" [] [] [.text termCat])).1 =
      .elem "SCRIPT" [] []
        (hlList (patOf termCat) false true [.text termCat]).1 ∧
    highlightFromQuery envWordHighlight rootScript = ⟨rootScript, [], none, []⟩ := by
  have h := highlight_skips_skippable_containers (patOf termCat) false "SCRIPT"
    [] [] [.text termCat] (by decide)
  exact ⟨h.1, h.2.2.2⟩

/-- C5: every regex metacharacter of the term is escaped, so matching is
literal and case-insensitive: matching the built pattern coincides with
case-insensitive literal comparison for every term and every input; `a.b`
against `a.b and axb` wraps only `a.b` (never `axb`), and `world` against
`Hello World` wraps `World`, preceded by the untouched text `Hello `. -/
theorem highlight_escaped_matching_is_literal_ci :
    (∀ t s : List Char, patMatchesAt (patOf t) s = litMatchesCI t s) ∧
    highlightFromQuery envDotAB rootDotAB =
      ⟨.elem "MAIN" [] [] [mkMark ['a', '.', 'b'],
        .text [' ', 'a', 'n', 'd', ' ', 'a', 'x', 'b']],
        [['a', '.', 'b']], some (['a', '.', 'b'], "smooth", "center"), []⟩ ∧
    highlightFromQuery envWorld rootHello =
      ⟨.elem "MAIN" [] [] [.text ['H', 'e', 'l', 'l', 'o', ' '],
        mkMark ['W', 'o', 'r', 'l', 'd']],
        [['W', 'o', 'r', 'l', 'd']],
        some (['W', 'o', 'r', 'l', 'd'], "smooth", "center"), []⟩ := by
  refine ⟨?_, ?_, ?_⟩
  · intro t s
    rw [patOf, lexPat_escape, patMatchesAt_lits]
  · simp [highlightFromQuery, highlightBody, decodeTerm, getParam, hlKey, trimL,
        plusToSpace, patOf, escapeRegex, lexPat, regexSpecials, hlNode, hlList,
        hasAnyMatch, patMatchesAt, tokMatches, splitPieces, splitGo, flushAcc,
        piecesToNodes, marksOf, mkMark, skipTags, hasMarkerClass, envDotAB, rootDotAB]
  · simp [highlightFromQuery, highlightBody, decodeTerm, getParam, hlKey, trimL,
        plusToSpace, patOf, escapeRegex, lexPat, regexSpecials, hlNode, hlList,
        hasAnyMatch, patMatchesAt, tokMatches, splitPieces, splitGo, flushAcc,
        piecesToNodes, marksOf, mkMark, skipTags, hasMarkerClass, envWorld, rootHello]

/-- C6: a processed text node is fully consumed: its replacement pieces
concatenate back to the whole node and no plain piece still contains a
match; on the single text node `cat cat` with term `cat`, exactly two
markers are created with the single space preserved as an unwrapped text
node between them. -/
theorem highlight_consumes_matching_node_fully (pat : List PatTok)
    (hp : pat ≠ []) :
    (∀ s : List Char, piecesText (splitPieces pat s) = s ∧
      ∀ r, Piece.plain r ∈ splitPieces pat s → hasAnyMatch pat r = false) ∧
    highlightFromQuery envCat rootCatCat =
      ⟨.elem "MAIN" [] [] [mkMark termCat, .text [' '], mkMark termCat],
        [termCat, termCat], some (termCat, "smooth", "center"), []⟩ := by
  refine ⟨fun s => ⟨splitPieces_text pat s,
    fun r hr => splitGo_plain_nomatch pat hp [] s (by simp) r hr⟩, ?_⟩
  simp [highlightFromQuery, highlightBody, decodeTerm, getParam, hlKey, trimL,
        plusToSpace, patOf, escapeRegex, lexPat, regexSpecials, hlNode, hlList,
        hasAnyMatch, patMatchesAt, tokMatches, splitPieces, splitGo, flushAcc,
        piecesToNodes, marksOf, mkMark, skipTags, hasMarkerClass, envCat, rootCatCat, termCat]

/-- Witness for C6: the split of `cat cat` by the pattern for `cat`
concatenates back to `cat cat`. -/
theorem highlight_consumes_matching_node_fully_witness :
    piecesText (splitPieces (patOf termCat) ['c', 'a', 't', ' ', 'c', 'a', 't']) =
      ['c', 'a', 't', ' ', 'c', 'a', 't'] :=
  ((highlight_consumes_matching_node_fully (patOf termCat) (by decide)).1
    ['c', 'a', 't', ' ', 'c', 'a', 't']).1

/-- C9: a term that passes the emptiness guard yields a non-empty pattern,
so the per-node match loop terminates (`splitGo` recurses on a strictly
shrinking suffix): every collected match is non-empty and at most
`s.length` matches are collected from a node of length `s.length`. -/
theorem highlight_match_loop_bounded (raw : Option (List Char))
    (t : List Char) (hdt : decodeTerm raw = some t) :
    patOf t ≠ [] ∧
    ∀ s : List Char,
      (marksOf (splitPieces (patOf t) s)).length ≤ s.length ∧
      ∀ m ∈ marksOf (splitPieces (patOf t) s), m ≠ [] := by
  have hps := patOf_ne_nil (decodeTerm_ne_nil hdt)
  refine ⟨hps, fun s => ⟨splitGo_marks_count (patOf t) [] s, ?_⟩⟩
  intro m hm hnil
  obtain ⟨-, hml, -⟩ := splitGo_marks (patOf t) [] s m hm
  rw [hnil] at hml
  exact hps (List.length_eq_zero.mp hml.symm)

/-- Witness for C9: the raw term `+cat` decodes to `cat`; its pattern is
non-empty and the node `cat cat` yields at most as many matches as it has
characters. -/
theorem highlight_match_loop_bounded_witness :
    patOf termCat ≠ [] ∧
      (marksOf (splitPieces (patOf termCat)
        ['c', 'a', 't', ' ', 'c', 'a', 't'])).length ≤ 7 := by
  have h := highlight_match_loop_bounded (some ['+', 'c', 'a', 't']) termCat
    (by decide)
  exact ⟨h.1, by simpa using (h.2 ['c', 'a', 't', ' ', 'c', 'a', 't']).1⟩

/-- C10: matching operates on each text node in isolation: every marker ever
created wraps a contiguous run of one single text node's value (a run that
matches the pattern), and the term `cat` split as `ca` + `<b>t</b>` is never
matched even though the root's concatenated text is exactly `cat`. -/
theorem highlight_markers_within_single_text_node :
    (∀ (env : Env) (root : DomNode) (t : List Char),
      decodeTerm (getParam env.query hlKey) = some t →
      ∀ m ∈ (highlightFromQuery env root).markers,
        ∃ s ∈ textVals root, patMatchesAt (patOf t) m = true ∧
          ∃ u v, s = u ++ (m ++ v)) ∧
    textOf rootSplitCat = termCat ∧
    highlightFromQuery envCat rootSplitCat = ⟨rootSplitCat, [], none, []⟩ := by
  refine ⟨?_, by simp [textOf, textOfL, rootSplitCat, termCat], ?_⟩
  · intro env root t hdt m hm
    rcases highlightBody_cases env root with ⟨hnone, hb⟩ | ⟨t2, hdt2, ⟨-, hb⟩ | ⟨-, hb⟩⟩
    · rw [hnone] at hdt
      exact Option.noConfusion hdt
    · simp only [highlightFromQuery, hb] at hm
      exact absurd hm (by simp)
    · have ht : t2 = t := by
        rw [hdt2] at hdt
        exact Option.some.inj hdt
      subst ht
      simp only [highlightFromQuery, hb] at hm
      obtain ⟨s, hs, hmt, -, hrun⟩ := hlNode_marks (patOf t2) false root m hm
      exact ⟨s, hs, hmt, hrun⟩
  · simp [highlightFromQuery, highlightBody, decodeTerm, getParam, hlKey, trimL,
        plusToSpace, patOf, escapeRegex, lexPat, regexSpecials, hlNode, hlList,
        hasAnyMatch, patMatchesAt, tokMatches, splitPieces, splitGo, flushAcc,
        piecesToNodes, marksOf, mkMark, skipTags, hasMarkerClass, envCat, rootSplitCat, termCat]

/-- Witness for C10: the marker created for `cat` on a root holding one text
node `cat` wraps a run of that very node. -/
theorem highlight_markers_within_single_text_node_witness :
    ∃ s ∈ textVals rootOneCat, patMatchesAt (patOf termCat) termCat = true ∧
      ∃ u v, s = u ++ (termCat ++ v) :=
  highlight_markers_within_single_text_node.1 envCat rootOneCat termCat
    (by decide) termCat
    (by simp [highlightFromQuery, highlightBody, decodeTerm, getParam, hlKey, trimL,
        plusToSpace, patOf, escapeRegex, lexPat, regexSpecials, hlNode, hlList,
        hasAnyMatch, patMatchesAt, tokMatches, splitPieces, splitGo, flushAcc,
        piecesToNodes, marksOf, mkMark, skipTags, hasMarkerClass, envCat, rootOneCat, termCat])

/-- C2 fails on the code.  With `?highlight=cat` on
`<main><p>cat</p><p>cat</p></main>` the call rewrites only the first
matching text node: `replaceChild` detaches the walker's current node, the
following `walker.nextNode()` starts from a parentless node and returns
`null` (the DOM defines no current-node adjustment for a `TreeWalker` on
removal), so the loop ends after the first replacement.  The second text
node still matches the term — `hasAnyMatch` is `true` on it — yet it is left
unprocessed, contradicting the claim that no matching text node remains. -/
theorem highlight_leaves_second_matching_node_raw :
    highlightFromQuery envCat rootTwoCats =
      ⟨.elem "MAIN" [] [] [.elem "P" [] [] [mkMark termCat],
        .elem "P" [] [] [.text termCat]],
        [termCat], some (termCat, "smooth", "center"), []⟩ ∧
    hasAnyMatch (patOf termCat) termCat = true := by
  constructor
  · simp [highlightFromQuery, highlightBody, decodeTerm, getParam, hlKey, trimL,
        plusToSpace, patOf, escapeRegex, lexPat, regexSpecials, hlNode, hlList,
        hasAnyMatch, patMatchesAt, tokMatches, splitPieces, splitGo, flushAcc,
        piecesToNodes, marksOf, mkMark, skipTags, hasMarkerClass, envCat, rootTwoCats, termCat]
  · decide

end Highlighter
